import Mathlib

/-!
Formalization of the numerical core of a GAN-based face-editing repository:
the latent-space linear interpolation and boundary projection routines
described by the specification (their implementation, `utils/manipulator.py`,
is not among the checked sources; only the caller
`src/encoder/InterFaceGAN/edit.py` is), the `FaceModifier` state machine of
`src/gui/face_modify.py`, and the boundary-loading phase of
`src/encoder/InterFaceGAN/edit.py`.
-/

open Matrix

namespace Manipulator

/-- Error taxonomy of the interpolation routine, per the spec (section 7):
`ShapeMismatch` when code and boundary trailing dimensions are not
broadcastable, `InvalidRange` when `steps < 1`. -/
inductive InterpError where
  | shapeMismatch
  | invalidRange
  deriving DecidableEq

/-- Evenly spaced manipulation distances.  Modelled from the spec: the
function `linear_interpolate` of `utils/manipulator.py` is missing from the
checked sources; the spec prescribes
`distances[k] = start_distance + k * (end_distance - start_distance) / max(steps - 1, 1)`. -/
def distances (start_distance end_distance : ℚ) (steps : ℤ) (k : ℕ) : ℚ :=
  start_distance + (k : ℚ) * (end_distance - start_distance) / ((max (steps - 1) 1 : ℤ) : ℚ)

/-- Trailing dimensions of two flat vectors are broadcast-compatible when
they are equal or either side is a singleton (numpy broadcasting). -/
def broadcastable (x y : List ℚ) : Bool :=
  (x.length == y.length) || (y.length == 1) || (x.length == 1)

/-- Elementwise addition after broadcasting a singleton side. -/
def bcastAdd (x y : List ℚ) : List ℚ :=
  if x.length = y.length then List.zipWith (fun a b => a + b) x y
  else if y.length = 1 then x.map (fun a => a + y.headI)
  else y.map (fun b => x.headI + b)

/-- Modelled from the spec: `linear_interpolate` of `utils/manipulator.py` is
missing from the checked sources (only its caller `edit.py` is present).
The spec contract `interpolate(code, boundary, start_distance, end_distance,
steps)` rejects `steps < 1` with `InvalidRange`, rejects non-broadcastable
trailing dimensions with `ShapeMismatch`, and otherwise eagerly returns the
`steps` latent codes `output[k] = code + distances[k] * boundary`. -/
def linear_interpolate (code boundary : List ℚ) (start_distance end_distance : ℚ)
    (steps : ℤ) : Except InterpError (List (List ℚ)) :=
  if steps < 1 then Except.error InterpError.invalidRange
  else if ¬ broadcastable code boundary then Except.error InterpError.shapeMismatch
  else Except.ok ((List.range steps.toNat).map fun k =>
    bcastAdd code (boundary.map (fun b => distances start_distance end_distance steps k * b)))

end Manipulator

namespace FaceModify

/-- State of the `FaceModifier` class of `src/gui/face_modify.py`: the current
latent code together with the four attribute boundaries loaded at
construction time. -/
structure FaceModifier where
  latent_code : List ℚ
  age_boundary : List ℚ
  pose_boundary : List ℚ
  gender_boundary : List ℚ
  smile_boundary : List ℚ
  deriving DecidableEq

/-- Mirrors `FaceModifier.modify_latent_code` (src/gui/face_modify.py lines
38-53): it computes `np.add(self.latent_code, np.multiply(boundary, offset))`
and returns the fresh array, performing no assignment to `self`; the state
component of the result is therefore the input state itself. -/
def modify_latent_code (s : FaceModifier) (boundary : List ℚ) (offset : ℚ) :
    FaceModifier × List ℚ :=
  (s, List.zipWith (fun a b => a + b) s.latent_code (boundary.map (fun b => b * offset)))

/-- Mirrors `FaceModifier.change_age`: assigns the modified code to
`self.latent_code`. -/
def change_age (s : FaceModifier) (offset : ℚ) : FaceModifier :=
  { (modify_latent_code s s.age_boundary offset).1 with
    latent_code := (modify_latent_code s s.age_boundary offset).2 }

/-- Mirrors `FaceModifier.change_pose`. -/
def change_pose (s : FaceModifier) (offset : ℚ) : FaceModifier :=
  { (modify_latent_code s s.pose_boundary offset).1 with
    latent_code := (modify_latent_code s s.pose_boundary offset).2 }

/-- Mirrors `FaceModifier.change_smile`. -/
def change_smile (s : FaceModifier) (offset : ℚ) : FaceModifier :=
  { (modify_latent_code s s.smile_boundary offset).1 with
    latent_code := (modify_latent_code s s.smile_boundary offset).2 }

/-- Mirrors `FaceModifier.change_gender`. -/
def change_gender (s : FaceModifier) (offset : ℚ) : FaceModifier :=
  { (modify_latent_code s s.gender_boundary offset).1 with
    latent_code := (modify_latent_code s s.gender_boundary offset).2 }

/-- Mirrors `FaceModifier.modify` (src/gui/face_modify.py lines 72-93); the
external generator `self.model.easy_synthesize` is abstracted as the function
`synth` from a latent code to the batch of rendered images.  When every
offset is zero the method returns the whole batch (`Sum.inl`) and the
untouched latent code; otherwise it applies the requested edits in source
order - note line 85 calls `change_pose` with `smile_offset` - synthesizes,
and returns only the first image (`Sum.inr`, `output[0]`). -/
def modify {Img : Type} (s : FaceModifier) (synth : List ℚ → List Img)
    (age_offset gender_offset pose_offset smile_offset : ℚ) :
    FaceModifier × ((List Img ⊕ Option Img) × List ℚ) :=
  if age_offset = 0 ∧ pose_offset = 0 ∧ smile_offset = 0 ∧ gender_offset = 0 then
    (s, (Sum.inl (synth s.latent_code), s.latent_code))
  else
    let s1 := if age_offset ≠ 0 then change_age s age_offset else s
    let s2 := if pose_offset ≠ 0 then change_pose s1 pose_offset else s1
    let s3 := if smile_offset ≠ 0 then change_pose s2 smile_offset else s2
    let s4 := if gender_offset ≠ 0 then change_gender s3 gender_offset else s3
    (s4, (Sum.inr (synth s4.latent_code).head?, s4.latent_code))

end FaceModify

namespace EditScript

/-- Mirrors the boundary-preparation phase of `main` in
`src/encoder/InterFaceGAN/edit.py` (lines 89-103): if the primary
`boundary_path` is not an existing file a `ValueError` is raised, while each
conditional boundary path is loaded only when its file exists and is
otherwise silently skipped; the surviving conditionals are handed to the
projection.  The filesystem is abstracted as a map `fs` from paths to the
array `np.load` would return, `none` meaning `os.path.isfile` is false. -/
def prepare_boundaries (fs : String → Option (List ℚ))
    (boundary_path cond1_path cond2_path : String) :
    Except String (List ℚ × List (List ℚ)) :=
  match fs boundary_path with
  | none => Except.error ("Boundary " ++ boundary_path ++ " does not exist!")
  | some b => Except.ok (b, (fs cond1_path).toList ++ (fs cond2_path).toList)

end EditScript

namespace Projection

open Classical

/-- Latent-space vectors of dimensionality n, as real tuples. -/
abbrev Vec (n : ℕ) := Fin n → ℝ

/-- Squared Euclidean norm, as a dot product. -/
def normSq {n : ℕ} (v : Vec n) : ℝ := v ⬝ᵥ v

/-- Euclidean (L2) norm. -/
noncomputable def nrm {n : ℕ} (v : Vec n) : ℝ := Real.sqrt (normSq v)

/-- L2 normalization to unit length. -/
noncomputable def normalize {n : ℕ} (v : Vec n) : Vec n := (nrm v)⁻¹ • v

/-- Gram matrix of pairwise dot products of a family of vectors: for the
stacked boundary matrix A this is A * Aᵀ. -/
def gram {n m : ℕ} (vs : Fin m → Vec n) : Matrix (Fin m) (Fin m) ℝ :=
  Matrix.of fun i j => vs i ⬝ᵥ vs j

/-- A family of vectors is dependent when some nontrivial linear combination
of it vanishes. -/
def dependent {n m : ℕ} (vs : Fin m → Vec n) : Prop :=
  ∃ x : Fin m → ℝ, x ≠ 0 ∧ ∑ i, x i • vs i = 0

/-- Error taxonomy of the boundary projection, per the spec (section 7): a
singular Gram matrix is reported together with the degenerate row index. -/
inductive ProjError where
  | singularMatrix (index : ℕ)

/-- Index of the first row of the stacked boundary matrix that lies in the
span of the rows before it; this is the degenerate index a `SingularMatrix`
error names (row 0 is the primary boundary, row i+1 the i-th conditional). -/
noncomputable def degenerateIndex {n m : ℕ} (A : Fin (m + 1) → Vec n) : ℕ :=
  sInf {j : ℕ | ∃ h : j < m + 1, A ⟨j, h⟩ ∈
    Submodule.span ℝ (A '' {i : Fin (m + 1) | (i : ℕ) < j})}

/-- Coefficients of the conditionals in the projection, obtained by solving
the linear system (over the Gram matrix of the conditionals) that makes the
new boundary orthogonal to every conditional. -/
noncomputable def projCoeff {n m : ℕ} (primary : Vec n)
    (conditionals : Fin m → Vec n) : Fin m → ℝ :=
  (gram conditionals)⁻¹ *ᵥ fun j => conditionals j ⬝ᵥ primary

/-- The projection of the primary boundary onto the orthogonal complement of
the span of the conditionals, before re-normalization:
`new_boundary = primary - sum_i coefficient_i * conditional_i`. -/
noncomputable def projResidual {n m : ℕ} (primary : Vec n)
    (conditionals : Fin m → Vec n) : Vec n :=
  primary - ∑ i, projCoeff primary conditionals i • conditionals i

/-- Modelled from the spec: `project_boundary` of `utils/manipulator.py` is
missing from the checked sources (only its caller `edit.py` is present).
The spec contract `project(primary, conditionals)` stacks `primary` (row 0)
and the conditionals into a matrix A, computes the Gram matrix A * Aᵀ and
fails with `SingularMatrix` (naming the degenerate index) when it is
singular; otherwise it subtracts from `primary` the combination of the
conditionals solving the orthogonality system and L2-normalizes the result.
An empty conditional list yields the normalized primary; the test on the
real determinant uses classical decidability. -/
noncomputable def project {n m : ℕ} (primary : Vec n)
    (conditionals : Fin m → Vec n) : Except ProjError (Vec n) :=
  if (gram (Fin.cons primary conditionals)).det = 0 then
    Except.error (ProjError.singularMatrix (degenerateIndex (Fin.cons primary conditionals)))
  else
    Except.ok (normalize (projResidual primary conditionals))

end Projection

namespace Manipulator

/-- C1: for every latent code, boundary, rational distances and steps >= 1
(with code and boundary of matching trailing dimension), interpolation
returns exactly `steps` codes, the k-th being
`code + distances[k] * boundary` with
`distances[k] = start + k * (end - start) / max(steps - 1, 1)`; the first
distance is `start_distance`, the last (when steps >= 2) is `end_distance`,
and for steps = 1 the distance list is just `[start_distance]`. -/
theorem linear_interpolate_spec (code boundary : List ℚ)
    (start_distance end_distance : ℚ) (steps : ℤ)
    (hlen : code.length = boundary.length) (hsteps : 1 ≤ steps) :
    ∃ out : List (List ℚ),
      linear_interpolate code boundary start_distance end_distance steps = Except.ok out ∧
      (out.length : ℤ) = steps ∧
      (∀ k : ℕ, ∀ hk : k < out.length,
        out.get ⟨k, hk⟩ = List.zipWith
          (fun a b => a + distances start_distance end_distance steps k * b) code boundary) ∧
      distances start_distance end_distance steps 0 = start_distance ∧
      (2 ≤ steps → distances start_distance end_distance steps (steps.toNat - 1) = end_distance) ∧
      (steps = 1 → (List.range steps.toNat).map (distances start_distance end_distance steps)
          = [start_distance]) := by
  have hnl : ¬ steps < 1 := not_lt.mpr hsteps
  have hbc : broadcastable code boundary = true := by
    simp [broadcastable, hlen]
  have hok : linear_interpolate code boundary start_distance end_distance steps =
      Except.ok ((List.range steps.toNat).map fun k =>
        bcastAdd code (boundary.map
          (fun b => distances start_distance end_distance steps k * b))) := by
    unfold linear_interpolate
    rw [if_neg hnl, if_neg (by simp [hbc])]
  have hd0 : distances start_distance end_distance steps 0 = start_distance := by
    simp [distances]
  refine ⟨_, hok, ?_, ?_, hd0, ?_, ?_⟩
  · simp [Int.toNat_of_nonneg (by omega : (0:ℤ) ≤ steps)]
  · intro k hk
    simp only [List.get_eq_getElem, List.getElem_map, List.getElem_range]
    simp [bcastAdd, hlen, List.zipWith_map_right]
  · intro h2
    have hmax : max (steps - 1) 1 = steps - 1 := max_eq_left (by omega)
    have hkq : ((steps.toNat - 1 : ℕ) : ℚ) = (steps : ℚ) - 1 := by
      have hk : ((steps.toNat - 1 : ℕ) : ℤ) = steps - 1 := by omega
      exact_mod_cast hk
    have hne : (steps : ℚ) - 1 ≠ 0 := by
      have h2q : (2:ℚ) ≤ (steps : ℚ) := by exact_mod_cast h2
      linarith
    unfold distances
    rw [hmax, hkq]
    push_cast
    field_simp
  · intro h1
    subst h1
    rw [show ((1:ℤ).toNat) = 1 from rfl, show List.range 1 = [0] from rfl]
    simpa using hd0

/-- Witness for C1 at code `[0, 0]`, boundary `[1, 0]`, range -1..1, 4 steps. -/
theorem linear_interpolate_spec_witness :
    ∃ out : List (List ℚ),
      linear_interpolate [0, 0] [1, 0] (-1) 1 4 = Except.ok out ∧
      (out.length : ℤ) = 4 ∧
      (∀ k : ℕ, ∀ hk : k < out.length,
        out.get ⟨k, hk⟩ = List.zipWith
          (fun a b => a + distances (-1) 1 4 k * b) [0, 0] [1, 0]) ∧
      distances (-1) 1 4 0 = -1 ∧
      (2 ≤ (4:ℤ) → distances (-1) 1 4 ((4:ℤ).toNat - 1) = 1) ∧
      ((4:ℤ) = 1 → (List.range (4:ℤ).toNat).map (distances (-1) 1 4) = [-1]) :=
  linear_interpolate_spec [0, 0] [1, 0] (-1) 1 4 (by decide) (by decide)

/-- C5: interpolation fails with `InvalidRange` whenever `steps < 1`, fails
with `ShapeMismatch` whenever the trailing dimensions are not broadcastable,
and any successful result is complete (its length is exactly `steps`); a
failure returns no partial result. -/
theorem linear_interpolate_failure_modes (code boundary : List ℚ)
    (start_distance end_distance : ℚ) (steps : ℤ) :
    (steps < 1 → linear_interpolate code boundary start_distance end_distance steps =
        Except.error InterpError.invalidRange) ∧
    (1 ≤ steps → broadcastable code boundary = false →
      linear_interpolate code boundary start_distance end_distance steps =
        Except.error InterpError.shapeMismatch) ∧
    (∀ out, linear_interpolate code boundary start_distance end_distance steps =
        Except.ok out →
      (out.length : ℤ) = steps ∧ 1 ≤ steps ∧ broadcastable code boundary = true) := by
  refine ⟨?_, ?_, ?_⟩
  · intro h
    simp [linear_interpolate, h]
  · intro h1 h2
    unfold linear_interpolate
    rw [if_neg (not_lt.mpr h1), if_pos (by simp [h2])]
  · intro out hout
    unfold linear_interpolate at hout
    by_cases h1 : steps < 1
    · rw [if_pos h1] at hout
      exact absurd hout (by simp)
    · by_cases h2 : broadcastable code boundary = true
      · rw [if_neg h1, if_neg (by simp [h2])] at hout
        have hout2 : (List.range steps.toNat).map (fun k =>
            bcastAdd code (boundary.map
              (fun b => distances start_distance end_distance steps k * b))) = out := by
          simpa using hout
        refine ⟨?_, by omega, h2⟩
        rw [← hout2]
        simp [Int.toNat_of_nonneg (by omega : (0:ℤ) ≤ steps)]
      · rw [if_neg h1, if_pos (by simpa using h2)] at hout
        exact absurd hout (by simp)

/-- Witness for C5: steps = -3 yields the InvalidRange error. -/
theorem linear_interpolate_failure_modes_witness :
    linear_interpolate [0] [1] 0 0 (-3) = Except.error InterpError.invalidRange :=
  (linear_interpolate_failure_modes [0] [1] 0 0 (-3)).1 (by decide)

end Manipulator

namespace FaceModify

/-- C7: the GUI edit primitive is pure: `modify_latent_code` leaves the
modifier state (in particular the stored latent code) unchanged and returns
the freshly computed code `latent_code + boundary * offset`; the original
sample stays intact. -/
theorem modify_latent_code_pure (s : FaceModifier) (boundary : List ℚ) (offset : ℚ) :
    (modify_latent_code s boundary offset).1 = s ∧
    (modify_latent_code s boundary offset).1.latent_code = s.latent_code ∧
    (modify_latent_code s boundary offset).2 =
      List.zipWith (fun a b => a + b) s.latent_code (boundary.map (fun b => b * offset)) :=
  ⟨rfl, rfl, rfl⟩

/-- C8: in `FaceModifier.modify`, a non-zero smile offset (with all other
offsets zero) invokes `change_pose`, moving the latent code along the pose
boundary scaled by the smile offset rather than along the smile boundary. -/
theorem modify_smile_applies_pose_boundary {Img : Type} (s : FaceModifier)
    (synth : List ℚ → List Img) (smile_offset : ℚ) (h : smile_offset ≠ 0) :
    modify s synth 0 0 0 smile_offset =
      (change_pose s smile_offset,
        (Sum.inr (synth (change_pose s smile_offset).latent_code).head?,
         (change_pose s smile_offset).latent_code)) ∧
    (change_pose s smile_offset).latent_code =
      List.zipWith (fun a b => a + b) s.latent_code
        (s.pose_boundary.map (fun b => b * smile_offset)) := by
  constructor
  · simp [modify, h]
  · rfl

/-- Witness for C8 at a concrete modifier with pose boundary `[2]`. -/
theorem modify_smile_applies_pose_boundary_witness :
    (change_pose (FaceModifier.mk [0] [1] [2] [3] [4]) 1).latent_code =
      List.zipWith (fun a b => a + b) [0] ([2].map (fun b => b * 1)) :=
  (modify_smile_applies_pose_boundary (FaceModifier.mk [0] [1] [2] [3] [4])
    (fun c => [c.length]) 1 (by decide)).2

/-- C9: `FaceModifier.modify` has an inconsistent return shape: with all four
offsets zero it returns the whole synthesized batch (`Sum.inl`) together with
the untouched latent code and state, while with any non-zero offset it
returns only the first image, `output[0]` (`Sum.inr`). -/
theorem modify_return_shapes {Img : Type} (s : FaceModifier) (synth : List ℚ → List Img)
    (age_offset gender_offset pose_offset smile_offset : ℚ) :
    modify s synth 0 0 0 0 = (s, (Sum.inl (synth s.latent_code), s.latent_code)) ∧
    (¬ (age_offset = 0 ∧ pose_offset = 0 ∧ smile_offset = 0 ∧ gender_offset = 0) →
      ∃ t : FaceModifier,
        modify s synth age_offset gender_offset pose_offset smile_offset =
          (t, (Sum.inr (synth t.latent_code).head?, t.latent_code))) := by
  constructor
  · simp [modify]
  · intro h
    unfold modify
    rw [if_neg h]
    exact ⟨_, rfl⟩

/-- Witness for C9: a non-zero age offset produces the single-image shape. -/
theorem modify_return_shapes_witness :
    ∃ t : FaceModifier,
      modify (FaceModifier.mk [0] [1] [2] [3] [4]) (fun c => [c.length]) 1 0 0 0 =
        (t, (Sum.inr [t.latent_code.length].head?, t.latent_code)) :=
  (modify_return_shapes (FaceModifier.mk [0] [1] [2] [3] [4]) (fun c => [c.length]) 1 0 0 0).2
    (by decide)

end FaceModify

namespace EditScript

/-- C10: the edit.py driver treats missing boundary files asymmetrically: a
missing primary boundary file raises a ValueError before any editing, while
a missing conditional boundary file is silently skipped and preparation
still succeeds with only the conditionals whose files exist. -/
theorem prepare_boundaries_asymmetry (fs : String → Option (List ℚ))
    (boundary_path cond1_path cond2_path : String) (b c : List ℚ) :
    (fs boundary_path = none → prepare_boundaries fs boundary_path cond1_path cond2_path =
        Except.error ("Boundary " ++ boundary_path ++ " does not exist!")) ∧
    (fs boundary_path = some b → fs cond1_path = none → fs cond2_path = some c →
        prepare_boundaries fs boundary_path cond1_path cond2_path = Except.ok (b, [c])) := by
  constructor
  · intro h
    simp [prepare_boundaries, h]
  · intro hb h1 h2
    simp [prepare_boundaries, hb, h1, h2]

/-- Witness for C10: the primary file exists, the first conditional file is
missing, the second exists; preparation succeeds with just that one. -/
theorem prepare_boundaries_asymmetry_witness :
    prepare_boundaries
      (fun p => if p = "boundary.npy" then some [1] else
        if p = "cond2.npy" then some [2] else none)
      "boundary.npy" "cond1.npy" "cond2.npy" = Except.ok ([1], [[2]]) :=
  (prepare_boundaries_asymmetry _ "boundary.npy" "cond1.npy" "cond2.npy" [1] [2]).2
    (by decide) (by decide) (by decide)

end EditScript

namespace Projection

lemma normSq_nonneg {n : ℕ} (v : Vec n) : 0 ≤ normSq v := by
  unfold normSq Matrix.dotProduct
  exact Finset.sum_nonneg fun i _ => mul_self_nonneg (v i)

lemma normSq_eq_zero_iff {n : ℕ} (v : Vec n) : normSq v = 0 ↔ v = 0 :=
  Matrix.dotProduct_self_eq_zero

lemma nrm_eq_zero_iff {n : ℕ} (v : Vec n) : nrm v = 0 ↔ v = 0 := by
  unfold nrm
  rw [Real.sqrt_eq_zero (normSq_nonneg v)]
  exact normSq_eq_zero_iff v

lemma normSq_smul {n : ℕ} (t : ℝ) (v : Vec n) : normSq (t • v) = t * t * normSq v := by
  unfold normSq
  rw [Matrix.smul_dotProduct, Matrix.dotProduct_smul, smul_eq_mul, smul_eq_mul, mul_assoc]

lemma normSq_normalize {n : ℕ} (v : Vec n) (hv : v ≠ 0) : normSq (normalize v) = 1 := by
  have ha : 0 ≤ normSq v := normSq_nonneg v
  have hz : normSq v ≠ 0 := fun h => hv ((normSq_eq_zero_iff v).mp h)
  have hm : nrm v * nrm v = normSq v := Real.mul_self_sqrt ha
  unfold normalize
  rw [normSq_smul, ← mul_inv, hm]
  exact inv_mul_cancel₀ hz

lemma nrm_normalize {n : ℕ} (v : Vec n) (hv : v ≠ 0) : nrm (normalize v) = 1 := by
  unfold nrm
  rw [normSq_normalize v hv, Real.sqrt_one]

lemma normalize_of_nrm_one {n : ℕ} (v : Vec n) (h : nrm v = 1) : normalize v = v := by
  unfold normalize
  rw [h, inv_one, one_smul]

lemma sum_smul_dotProduct {n m : ℕ} (x : Fin m → ℝ) (vs : Fin m → Vec n) (w : Vec n) :
    (∑ i, x i • vs i) ⬝ᵥ w = ∑ i, x i * (vs i ⬝ᵥ w) := by
  simp only [Matrix.dotProduct, Finset.sum_apply, Pi.smul_apply, smul_eq_mul,
    Finset.mul_sum, Finset.sum_mul]
  rw [Finset.sum_comm]
  refine Finset.sum_congr rfl fun i _ => ?_
  refine Finset.sum_congr rfl fun k _ => ?_
  ring

lemma dotProduct_sum_right {n m : ℕ} (w : Vec n) (x : Fin m → ℝ) (vs : Fin m → Vec n) :
    w ⬝ᵥ (∑ i, x i • vs i) = ∑ i, x i * (w ⬝ᵥ vs i) := by
  rw [Matrix.dotProduct_comm, sum_smul_dotProduct]
  exact Finset.sum_congr rfl fun i _ => by rw [Matrix.dotProduct_comm]

lemma gram_mulVec {n m : ℕ} (vs : Fin m → Vec n) (x : Fin m → ℝ) :
    gram vs *ᵥ x = fun j => vs j ⬝ᵥ (∑ i, x i • vs i) := by
  funext j
  show (fun i => gram vs j i) ⬝ᵥ x = vs j ⬝ᵥ (∑ i, x i • vs i)
  rw [dotProduct_sum_right]
  simp only [Matrix.dotProduct, gram, Matrix.of_apply]
  refine Finset.sum_congr rfl fun i _ => ?_
  ring

lemma gram_det_eq_zero_iff {n m : ℕ} (vs : Fin m → Vec n) :
    (gram vs).det = 0 ↔ dependent vs := by
  rw [← Matrix.exists_mulVec_eq_zero_iff]
  unfold dependent
  constructor
  · rintro ⟨x, hx, hGx⟩
    refine ⟨x, hx, ?_⟩
    have hq : x ⬝ᵥ (gram vs *ᵥ x) = 0 := by rw [hGx, Matrix.dotProduct_zero]
    have hw : x ⬝ᵥ (gram vs *ᵥ x) = (∑ i, x i • vs i) ⬝ᵥ (∑ i, x i • vs i) := by
      rw [gram_mulVec, sum_smul_dotProduct]
      rfl
    exact Matrix.dotProduct_self_eq_zero.mp (by rw [← hw]; exact hq)
  · rintro ⟨x, hx, hsum⟩
    refine ⟨x, hx, ?_⟩
    rw [gram_mulVec, hsum]
    funext j
    exact Matrix.dotProduct_zero _

lemma dependent_cons_of_dependent {n m : ℕ} (B : Vec n) (Cs : Fin m → Vec n)
    (h : dependent Cs) : dependent (Fin.cons B Cs) := by
  obtain ⟨x, hx, hsum⟩ := h
  refine ⟨Fin.cons 0 x, ?_, ?_⟩
  · intro h0
    apply hx
    funext i
    have h1 := congrFun h0 i.succ
    rwa [Fin.cons_succ] at h1
  · rw [Fin.sum_univ_succ]
    simp [Fin.cons_zero, Fin.cons_succ, hsum]

lemma conditionals_det_ne_zero {n m : ℕ} (B : Vec n) (Cs : Fin m → Vec n)
    (h : (gram (Fin.cons B Cs)).det ≠ 0) : (gram Cs).det ≠ 0 := fun h0 =>
  h ((gram_det_eq_zero_iff _).mpr
    (dependent_cons_of_dependent B Cs ((gram_det_eq_zero_iff _).mp h0)))

lemma residual_orth {n m : ℕ} (B : Vec n) (Cs : Fin m → Vec n)
    (h : (gram (Fin.cons B Cs)).det ≠ 0) (j : Fin m) :
    Cs j ⬝ᵥ projResidual B Cs = 0 := by
  have hGc : IsUnit (gram Cs).det := isUnit_iff_ne_zero.mpr (conditionals_det_ne_zero B Cs h)
  unfold projResidual
  rw [Matrix.dotProduct_sub, dotProduct_sum_right]
  have hsolve : gram Cs *ᵥ projCoeff B Cs = fun i => Cs i ⬝ᵥ B := by
    unfold projCoeff
    rw [Matrix.mulVec_mulVec, Matrix.mul_nonsing_inv _ hGc, Matrix.one_mulVec]
  have hj := congrFun hsolve j
  rw [show (gram Cs *ᵥ projCoeff B Cs) j
      = ∑ i, (Cs j ⬝ᵥ Cs i) * projCoeff B Cs i from rfl] at hj
  rw [show ∑ i, projCoeff B Cs i * (Cs j ⬝ᵥ Cs i)
      = ∑ i, (Cs j ⬝ᵥ Cs i) * projCoeff B Cs i from
    Finset.sum_congr rfl fun i _ => mul_comm _ _]
  rw [hj, sub_self]

lemma residual_ne_zero {n m : ℕ} (B : Vec n) (Cs : Fin m → Vec n)
    (h : (gram (Fin.cons B Cs)).det ≠ 0) : projResidual B Cs ≠ 0 := by
  intro h0
  apply h
  apply (gram_det_eq_zero_iff _).mpr
  refine ⟨Fin.cons 1 (fun i => - projCoeff B Cs i), ?_, ?_⟩
  · intro hc
    have h1 := congrFun hc 0
    rw [Fin.cons_zero] at h1
    exact one_ne_zero h1
  · rw [Fin.sum_univ_succ]
    simp only [Fin.cons_zero, Fin.cons_succ, one_smul, neg_smul,
      Finset.sum_neg_distrib]
    rw [← sub_eq_add_neg]
    exact h0

lemma project_eq_ok {n m : ℕ} (B : Vec n) (Cs : Fin m → Vec n)
    (h : (gram (Fin.cons B Cs)).det ≠ 0) :
    project B Cs = Except.ok (normalize (projResidual B Cs)) := by
  unfold project
  rw [if_neg h]

lemma project_eq_error {n m : ℕ} (B : Vec n) (Cs : Fin m → Vec n)
    (h : (gram (Fin.cons B Cs)).det = 0) :
    project B Cs = Except.error (ProjError.singularMatrix
      (degenerateIndex (Fin.cons B Cs))) := by
  unfold project
  rw [if_pos h]

lemma project_ok_inversion {n m : ℕ} {B R : Vec n} {Cs : Fin m → Vec n}
    (h : project B Cs = Except.ok R) :
    (gram (Fin.cons B Cs)).det ≠ 0 ∧ R = normalize (projResidual B Cs) := by
  by_cases hd : (gram (Fin.cons B Cs)).det = 0
  · rw [project_eq_error B Cs hd] at h
    exact absurd h (by simp)
  · rw [project_eq_ok B Cs hd] at h
    refine ⟨hd, ?_⟩
    injection h with h2
    exact h2.symm

lemma cons_empty_det_ne_zero {n : ℕ} (B : Vec n) (hB : B ≠ 0) :
    (gram (Fin.cons B (![] : Fin 0 → Vec n))).det ≠ 0 := by
  rw [Ne, gram_det_eq_zero_iff]
  rintro ⟨x, hx, hsum⟩
  rw [Fin.sum_univ_succ] at hsum
  simp only [Fin.cons_zero, Finset.univ_eq_empty, Finset.sum_empty, add_zero] at hsum
  rcases smul_eq_zero.mp hsum with h | h
  · apply hx
    funext i
    fin_cases i
    exact h
  · exact hB h

lemma projResidual_empty {n : ℕ} (B : Vec n) :
    projResidual B (![] : Fin 0 → Vec n) = B := by
  unfold projResidual
  simp

lemma project_empty_eq {n : ℕ} (B : Vec n) (hB : B ≠ 0) :
    project B (![] : Fin 0 → Vec n) = Except.ok (normalize B) := by
  rw [project_eq_ok B _ (cons_empty_det_ne_zero B hB), projResidual_empty]

/-- C2: with an empty conditional list, projecting a non-zero primary
boundary returns the primary normalized to unit L2 norm - a unit vector
parallel to B whose dot product with itself (B normalized) is 1. -/
theorem project_no_conditionals {n : ℕ} (B : Vec n) (hB : B ≠ 0) :
    project B (![] : Fin 0 → Vec n) = Except.ok (normalize B) ∧
    nrm (normalize B) = 1 ∧
    normalize B ⬝ᵥ normalize B = 1 ∧
    ∃ t : ℝ, normalize B = t • B :=
  ⟨project_empty_eq B hB, nrm_normalize B hB, normSq_normalize B hB, ⟨(nrm B)⁻¹, rfl⟩⟩

/-- Witness for C2 at the one-dimensional boundary with single entry 1. -/
theorem project_no_conditionals_witness :
    project (fun _ : Fin 1 => (1:ℝ)) (![] : Fin 0 → Vec 1) =
      Except.ok (normalize (fun _ : Fin 1 => (1:ℝ))) :=
  (project_no_conditionals (fun _ => 1) (fun h => one_ne_zero (congrFun h 0))).1

/-- C3: projecting a primary boundary B against one conditional boundary C
linearly independent of B succeeds with a result orthogonal to C and of
unit L2 norm. -/
theorem project_single_conditional {n : ℕ} (B C : Vec n)
    (hind : ∀ a b : ℝ, a • B + b • C = 0 → a = 0 ∧ b = 0) :
    ∃ R : Vec n, project B ![C] = Except.ok R ∧ R ⬝ᵥ C = 0 ∧ nrm R = 1 := by
  have hdep : ¬ dependent (Fin.cons B ![C]) := by
    rintro ⟨x, hx, hsum⟩
    rw [Fin.sum_univ_succ] at hsum
    simp only [Fin.sum_univ_one, Fin.cons_zero, Fin.cons_succ] at hsum
    have hC0 : (![C] : Fin 1 → Vec n) 0 = C := rfl
    rw [hC0] at hsum
    obtain ⟨h1, h2⟩ := hind _ _ hsum
    apply hx
    funext i
    fin_cases i
    · exact h1
    · exact h2
  have hdet : (gram (Fin.cons B ![C])).det ≠ 0 :=
    fun h0 => hdep ((gram_det_eq_zero_iff _).mp h0)
  refine ⟨normalize (projResidual B ![C]), project_eq_ok B ![C] hdet, ?_, ?_⟩
  · unfold normalize
    rw [Matrix.smul_dotProduct, smul_eq_mul, Matrix.dotProduct_comm,
      show C ⬝ᵥ projResidual B ![C] = 0 from residual_orth B ![C] hdet 0, mul_zero]
  · exact nrm_normalize _ (residual_ne_zero B ![C] hdet)

/-- Witness for C3 at B = (1, 0) and C = (0, 1). -/
theorem project_single_conditional_witness :
    ∃ R : Vec 2, project ![1, 0] ![![0, 1]] = Except.ok R ∧
      R ⬝ᵥ ![0, 1] = 0 ∧ nrm R = 1 := by
  refine project_single_conditional ![1, 0] ![0, 1] ?_
  intro a b hab
  have h0 := congrFun hab 0
  have h1 := congrFun hab 1
  simp only [Pi.add_apply, Pi.smul_apply, Matrix.cons_val_zero, Matrix.cons_val_one,
    Matrix.head_cons, smul_eq_mul, mul_one, mul_zero, add_zero, zero_add,
    Pi.zero_apply] at h0 h1
  exact ⟨h0, h1⟩

/-- C4: projecting against a duplicated conditional always fails with a
SingularMatrix error naming a degenerate index, and never returns a
boundary. -/
theorem project_duplicate_conditional {n : ℕ} (B C : Vec n) :
    (∃ j : ℕ, project B ![C, C] = Except.error (ProjError.singularMatrix j)) ∧
    ∀ R : Vec n, project B ![C, C] ≠ Except.ok R := by
  have hrows : (gram (Fin.cons B ![C, C])) 1 = (gram (Fin.cons B ![C, C])) 2 := by
    funext j
    rfl
  have hdet : (gram (Fin.cons B ![C, C])).det = 0 :=
    Matrix.det_zero_of_row_eq (by decide) hrows
  rw [project_eq_error B ![C, C] hdet]
  exact ⟨⟨degenerateIndex (Fin.cons B ![C, C]), rfl⟩, fun R h => by injection h⟩

/-- Witness for C4 at concrete one-dimensional boundaries. -/
theorem project_duplicate_conditional_witness :
    (∃ j : ℕ, project (fun _ : Fin 1 => (1:ℝ)) ![fun _ => 2, fun _ => 2]
        = Except.error (ProjError.singularMatrix j)) ∧
    ∀ R : Vec 1, project (fun _ : Fin 1 => (1:ℝ)) ![fun _ => 2, fun _ => 2]
        ≠ Except.ok R :=
  project_duplicate_conditional (fun _ => 1) (fun _ => 2)

/-- C6: projection is idempotent - when it succeeds, projecting its own
normalized output against the same conditionals returns that output
unchanged. -/
theorem project_idempotent {n m : ℕ} (B : Vec n) (Cs : Fin m → Vec n) (R : Vec n)
    (h : project B Cs = Except.ok R) : project R Cs = Except.ok R := by
  obtain ⟨hdet, hR⟩ := project_ok_inversion h
  have hdep : ¬ dependent (Fin.cons B Cs) := fun hd => hdet ((gram_det_eq_zero_iff _).mpr hd)
  have hu : projResidual B Cs ≠ 0 := residual_ne_zero B Cs hdet
  have hnrm : nrm (projResidual B Cs) ≠ 0 := fun h0 => hu ((nrm_eq_zero_iff _).mp h0)
  have horthR : ∀ j, Cs j ⬝ᵥ R = 0 := by
    intro j
    rw [hR]
    unfold normalize
    rw [Matrix.dotProduct_smul, smul_eq_mul, residual_orth B Cs hdet j, mul_zero]
  have hnrmR : nrm R = 1 := by
    rw [hR]
    exact nrm_normalize _ hu
  have hdep2 : ¬ dependent (Fin.cons R Cs) := by
    rintro ⟨x, hx, hsum⟩
    apply hdep
    refine ⟨Fin.cons (x 0 * (nrm (projResidual B Cs))⁻¹)
      (fun j => x j.succ - x 0 * (nrm (projResidual B Cs))⁻¹ * projCoeff B Cs j), ?_, ?_⟩
    · intro h0
      have ht := congrFun h0 0
      rw [Fin.cons_zero] at ht
      have hx0 : x 0 = 0 := by
        rcases mul_eq_zero.mp ht with h1 | h1
        · exact h1
        · exact absurd h1 (inv_ne_zero hnrm)
      apply hx
      funext i
      refine Fin.cases ?_ ?_ i
      · exact hx0
      · intro j
        have h2 := congrFun h0 j.succ
        rw [Fin.cons_succ, hx0, zero_mul, zero_mul, sub_zero] at h2
        exact h2
    · rw [Fin.sum_univ_succ] at hsum ⊢
      simp only [Fin.cons_zero, Fin.cons_succ] at hsum ⊢
      have hdist : ∑ j, (x j.succ
            - x 0 * (nrm (projResidual B Cs))⁻¹ * projCoeff B Cs j) • Cs j
          = (∑ j, x j.succ • Cs j) -
            (x 0 * (nrm (projResidual B Cs))⁻¹) • ∑ j, projCoeff B Cs j • Cs j := by
        rw [Finset.smul_sum, ← Finset.sum_sub_distrib]
        refine Finset.sum_congr rfl fun j _ => ?_
        rw [sub_smul, ← smul_smul]
      have hxR : x 0 • R =
          (x 0 * (nrm (projResidual B Cs))⁻¹) • projResidual B Cs := by
        rw [hR]
        unfold normalize
        rw [smul_smul]
      have hsplit : (x 0 * (nrm (projResidual B Cs))⁻¹) • projResidual B Cs
          = (x 0 * (nrm (projResidual B Cs))⁻¹) • B
            - (x 0 * (nrm (projResidual B Cs))⁻¹) • ∑ j, projCoeff B Cs j • Cs j := by
        nth_rewrite 2 [show projResidual B Cs = B - ∑ j, projCoeff B Cs j • Cs j from rfl]
        rw [smul_sub]
      rw [hxR, hsplit] at hsum
      rw [hdist, ← hsum]
      module
  have hdet2 : (gram (Fin.cons R Cs)).det ≠ 0 :=
    fun h0 => hdep2 ((gram_det_eq_zero_iff _).mp h0)
  have hcoeff : projCoeff R Cs = 0 := by
    unfold projCoeff
    rw [show (fun j => Cs j ⬝ᵥ R) = (0 : Fin m → ℝ) from funext fun j => horthR j,
      Matrix.mulVec_zero]
  have hres : projResidual R Cs = R := by
    unfold projResidual
    rw [hcoeff]
    simp
  rw [project_eq_ok R Cs hdet2, hres, normalize_of_nrm_one R hnrmR]

/-- Witness for C6 at the unit one-dimensional boundary and no
conditionals. -/
theorem project_idempotent_witness :
    project (fun _ : Fin 1 => (1:ℝ)) (![] : Fin 0 → Vec 1) =
      Except.ok (fun _ : Fin 1 => (1:ℝ)) := by
  have hB : (fun _ : Fin 1 => (1:ℝ)) ≠ 0 := fun h => one_ne_zero (congrFun h 0)
  have hsq : normSq (fun _ : Fin 1 => (1:ℝ)) = 1 := by
    unfold normSq Matrix.dotProduct
    simp
  have hnorm : normalize (fun _ : Fin 1 => (1:ℝ)) = (fun _ : Fin 1 => (1:ℝ)) := by
    unfold normalize nrm
    rw [hsq, Real.sqrt_one, inv_one, one_smul]
  refine project_idempotent (fun _ : Fin 1 => (1:ℝ)) (![] : Fin 0 → Vec 1)
    (fun _ : Fin 1 => (1:ℝ)) ?_
  rw [project_empty_eq _ hB, hnorm]

end Projection
